import Mathlib

/-
Verification of the `maps` Go package (generic map helpers, Set, Sync, Observable).

Modelling choices (shallow embedding):
* A Go map value `map[K]V` is modelled as an association list `List (K × V)`
  whose keys are unique (Go maps enforce this; theorems that need it take a
  `Nodup` hypothesis on the key list).  `m[k]` (comma-ok) is `alGet`,
  `m[k]` with zero-value default is `alGetD`, assignment `m[k] = v` is
  `alSet` (replace in place or append), `delete(m, k)` is `alRemove`.
* A nil Go map is `none` in `Option (List (K × V))`; a non-nil map is `some l`.
* Iteration order of a Go map is unspecified; the embedding iterates in list
  order, one concrete admissible order.
* Aliasing (clone independence, Copy's effect on src) is modelled with a
  `Store`: a list of map cells addressed by index; mutation writes one cell.
* Locks are synchronisation-only and have no effect on sequential semantics;
  they are elided.  Operations that the source runs inside a lock are modelled
  as atomic pure state transformers.
* Observers are opaque identities of type `O`; invoking an observer is
  recorded as an event `(observer, key, new, old)` in an event trace that each
  mutating operation returns alongside the new state.
-/

namespace GoMaps

variable {K V A O T : Type}

/-- Go map read `m[k]` (comma-ok form): first entry with the given key. -/
def alGet [DecidableEq K] : List (K × V) → K → Option V
  | [], _ => none
  | (k0, v0) :: rest, k => if k0 = k then some v0 else alGet rest k

/-- Go map read `m[k]`: the stored value, or the zero value when absent. -/
def alGetD [DecidableEq K] [Inhabited V] (l : List (K × V)) (k : K) : V :=
  (alGet l k).getD default

/-- Go map assignment `m[k] = v`: replace the entry in place, or append. -/
def alSet [DecidableEq K] : List (K × V) → K → V → List (K × V)
  | [], k, v => [(k, v)]
  | (k0, v0) :: rest, k, v =>
      if k0 = k then (k, v) :: rest else (k0, v0) :: alSet rest k v

/-- Go `delete(m, k)`: remove the entry for `k` (no-op when absent). -/
def alRemove [DecidableEq K] : List (K × V) → K → List (K × V)
  | [], _ => []
  | (k0, v0) :: rest, k =>
      if k0 = k then alRemove rest k else (k0, v0) :: alRemove rest k

/-- The keys of the association list. -/
def alKeys (l : List (K × V)) : List K := l.map Prod.fst

@[simp]
theorem alKeys_nil : alKeys ([] : List (K × V)) = [] := rfl

@[simp]
theorem alKeys_cons (k : K) (v : V) (rest : List (K × V)) :
    alKeys ((k, v) :: rest) = k :: alKeys rest := rfl

@[simp]
theorem alGet_nil [DecidableEq K] (k : K) : alGet ([] : List (K × V)) k = none := rfl

@[simp]
theorem alGet_cons [DecidableEq K] (k0 : K) (v0 : V) (rest : List (K × V)) (k : K) :
    alGet ((k0, v0) :: rest) k = if k0 = k then some v0 else alGet rest k := rfl

@[simp]
theorem alGet_alSet_self [DecidableEq K] (l : List (K × V)) (k : K) (v : V) :
    alGet (alSet l k v) k = some v := by
  induction l with
  | nil => simp [alSet]
  | cons p rest ih =>
    obtain ⟨k0, v0⟩ := p
    by_cases h : k0 = k <;> simp [alSet, h, ih]

theorem alGet_alSet_ne [DecidableEq K] (l : List (K × V)) (k k' : K) (v : V)
    (h : k' ≠ k) : alGet (alSet l k v) k' = alGet l k' := by
  induction l with
  | nil => simp [alSet, h.symm]
  | cons p rest ih =>
    obtain ⟨k0, v0⟩ := p
    by_cases h0 : k0 = k
    · subst h0
      simp [alSet, h.symm]
    · simp only [alSet, if_neg h0, alGet_cons]
      by_cases h1 : k0 = k' <;> simp [h1, ih]

@[simp]
theorem alGet_alRemove_self [DecidableEq K] (l : List (K × V)) (k : K) :
    alGet (alRemove l k) k = none := by
  induction l with
  | nil => simp [alRemove]
  | cons p rest ih =>
    obtain ⟨k0, v0⟩ := p
    by_cases h : k0 = k <;> simp [alRemove, h, ih]

theorem alGet_alRemove_ne [DecidableEq K] (l : List (K × V)) (k k' : K)
    (h : k' ≠ k) : alGet (alRemove l k) k' = alGet l k' := by
  induction l with
  | nil => simp [alRemove]
  | cons p rest ih =>
    obtain ⟨k0, v0⟩ := p
    by_cases h0 : k0 = k
    · subst h0
      simp [alRemove, if_neg (Ne.symm h), ih]
    · simp only [alRemove, if_neg h0, alGet_cons]
      by_cases h1 : k0 = k' <;> simp [h1, ih]

theorem alSet_alSet [DecidableEq K] (l : List (K × V)) (k : K) (v w : V) :
    alSet (alSet l k v) k w = alSet l k w := by
  induction l with
  | nil => simp [alSet]
  | cons p rest ih =>
    obtain ⟨k0, v0⟩ := p
    by_cases h : k0 = k <;> simp [alSet, h, ih]

theorem alRemove_alRemove [DecidableEq K] (l : List (K × V)) (k : K) :
    alRemove (alRemove l k) k = alRemove l k := by
  induction l with
  | nil => simp [alRemove]
  | cons p rest ih =>
    obtain ⟨k0, v0⟩ := p
    by_cases h : k0 = k <;> simp [alRemove, h, ih]

theorem alGet_append [DecidableEq K] (l₁ l₂ : List (K × V)) (k : K) :
    alGet (l₁ ++ l₂) k =
      match alGet l₁ k with
      | some v => some v
      | none => alGet l₂ k := by
  induction l₁ with
  | nil => simp
  | cons p rest ih =>
    obtain ⟨k0, v0⟩ := p
    by_cases h : k0 = k <;> simp [h, ih]

theorem alSet_of_alGet_none [DecidableEq K] (l : List (K × V)) (k : K) (v : V)
    (h : alGet l k = none) : alSet l k v = l ++ [(k, v)] := by
  induction l with
  | nil => simp [alSet]
  | cons p rest ih =>
    obtain ⟨k0, v0⟩ := p
    by_cases h0 : k0 = k
    · simp [h0] at h
    · simp only [alGet_cons, if_neg h0] at h
      simp [alSet, h0, ih h]

theorem alGet_none_of_not_mem_alKeys [DecidableEq K] (l : List (K × V)) (k : K)
    (h : k ∉ alKeys l) : alGet l k = none := by
  induction l with
  | nil => simp
  | cons p rest ih =>
    obtain ⟨k0, v0⟩ := p
    simp only [alKeys, List.map_cons, List.mem_cons, not_or] at h
    simp [Ne.symm h.1, ih (by simpa [alKeys] using h.2)]

theorem alGet_some_of_mem_nodup [DecidableEq K] (l : List (K × V)) (k : K) (v : V)
    (hn : (alKeys l).Nodup) (h : (k, v) ∈ l) : alGet l k = some v := by
  induction l with
  | nil => simp at h
  | cons p rest ih =>
    obtain ⟨k0, v0⟩ := p
    simp only [alKeys, List.map_cons, List.nodup_cons] at hn
    rcases List.mem_cons.mp h with h | h
    · obtain ⟨rfl, rfl⟩ : k = k0 ∧ v = v0 := by simpa using h
      simp
    · have hk : k0 ≠ k := by
        rintro rfl
        exact hn.1 (List.mem_map.mpr ⟨(k0, v), h, rfl⟩)
      simp [hk, ih (by simpa [alKeys] using hn.2) h]

theorem mem_of_alGet_some [DecidableEq K] (l : List (K × V)) (k : K) (v : V)
    (h : alGet l k = some v) : (k, v) ∈ l := by
  induction l with
  | nil => simp at h
  | cons p rest ih =>
    obtain ⟨k0, v0⟩ := p
    by_cases h0 : k0 = k
    · subst h0
      simp only [alGet_cons, eq_self_iff_true, if_true, Option.some.injEq] at h
      subst h
      exact List.mem_cons_self ..
    · simp only [alGet_cons, if_neg h0] at h
      exact List.mem_cons_of_mem _ (ih h)

/-- Go `Clone` body loop: `for k, v := range m { r[k] = v }` starting from an
empty fresh map `r`. -/
def cloneLoop [DecidableEq K] : List (K × V) → List (K × V) → List (K × V)
  | [], r => r
  | (k, v) :: rest, r => cloneLoop rest (alSet r k v)

/-- Go `Clone(m)`: nil in, nil out; otherwise copy every entry into a fresh map. -/
def Clone [DecidableEq K] : Option (List (K × V)) → Option (List (K × V))
  | none => none
  | some l => some (cloneLoop l [])

/-- Go `Filter` body loop: `for k, v := range m { if test(k, v) { r[k] = v } }`
starting from an empty fresh map `r`. -/
def filterLoop [DecidableEq K] (test : K → V → Bool) :
    List (K × V) → List (K × V) → List (K × V)
  | [], r => r
  | (k, v) :: rest, r => filterLoop test rest (if test k v then alSet r k v else r)

/-- Go `Filter(m, test)`: nil in, nil out; otherwise the entries passing `test`
collected into a fresh map. -/
def Filter [DecidableEq K] (m : Option (List (K × V))) (test : K → V → Bool) :
    Option (List (K × V)) :=
  match m with
  | none => none
  | some l => some (filterLoop test l [])

/-- Go `Copy(dst, src)`: `for k, v := range src { dst[k] = v }`; returns the
updated contents of `dst`. -/
def Copy [DecidableEq K] : List (K × V) → List (K × V) → List (K × V)
  | dst, [] => dst
  | dst, (k, v) :: src => Copy (alSet dst k v) src

/-- Go `Reduce` / `ReduceSync` body: fold the accumulator over all entries. -/
def ReduceSync (d : List (K × V)) (a : A) (f : A → K → V → A) : A :=
  d.foldl (fun a p => f a p.1 p.2) a

/-- A store of map cells addressed by index, to express aliasing facts (a Go
map variable is a reference; `Clone` allocates a fresh cell). -/
abbrev Store (K V : Type) := List (List (K × V))

/-- The contents of the map at address `a` (empty when out of range). -/
def Store.read (st : Store K V) (a : Nat) : List (K × V) := st.getD a []

/-- Replace the contents of the map at address `a`. -/
def Store.write (st : Store K V) (a : Nat) (l : List (K × V)) : Store K V :=
  st.set a l

/-- `Clone` of the map at address `a`: allocates a fresh cell holding a copy of
its entries, and returns the new store with the fresh address. -/
def Store.cloneAt [DecidableEq K] (st : Store K V) (a : Nat) : Store K V × Nat :=
  (st ++ [cloneLoop (Store.read st a) []], st.length)

/-- `m[k] = v` on the map at address `a`. -/
def Store.setAt [DecidableEq K] (st : Store K V) (a : Nat) (k : K) (v : V) :
    Store K V :=
  Store.write st a (alSet (Store.read st a) k v)

/-- `Copy(dst, src)` where `dst` and `src` are the maps at two addresses. -/
def Store.copyAt [DecidableEq K] (st : Store K V) (adst asrc : Nat) : Store K V :=
  Store.write st adst (Copy (Store.read st adst) (Store.read st asrc))

/-- Go `Set[T]` is `map[T]struct{}`. -/
abbrev GoSet (T : Type) := List (T × Unit)

/-- Go `Set.Has`: `_, ok := s[t]; return ok`. -/
def GoSet.Has [DecidableEq T] (s : GoSet T) (t : T) : Bool := (alGet s t).isSome

/-- Go `Set.Add`: `s[t] = struct{}{}`. -/
def GoSet.Add [DecidableEq T] (s : GoSet T) (t : T) : GoSet T := alSet s t ()

/-- Go `Set.Remove`: `delete(s, t)`. -/
def GoSet.Remove [DecidableEq T] (s : GoSet T) (t : T) : GoSet T := alRemove s t

namespace Sync

/-- `Sync.Keys`: snapshot of all keys under the read lock. -/
def Keys (d : List (K × V)) : List K := alKeys d

/-- `Sync.Values`: snapshot of all values under the read lock. -/
def Values (d : List (K × V)) : List V := d.map Prod.snd

/-- `Sync.Size`: `len(s.data)`. -/
def Size (d : List (K × V)) : Nat := d.length

/-- `Sync.Get`: `s.data[key]` (zero value when absent). -/
def Get [DecidableEq K] [Inhabited V] (d : List (K × V)) (k : K) : V := alGetD d k

/-- `Sync.Set` / `Sync.set`: `s.data[key] = val` under the write lock. -/
def Set [DecidableEq K] (d : List (K × V)) (k : K) (v : V) : List (K × V) :=
  alSet d k v

/-- `Sync.Delete`: `for _, key := range keys { delete(s.data, key) }`. -/
def Delete [DecidableEq K] : List (K × V) → List K → List (K × V)
  | d, [] => d
  | d, k :: keys => Delete (alRemove d k) keys

/-- `Sync.Filter`: collect entries passing `f` into a fresh plain map. -/
def Filter [DecidableEq K] (d : List (K × V)) (f : K → V → Bool) : List (K × V) :=
  filterLoop f d []

/-- `Sync.Find`: first entry passing `f`, or zero values. -/
def Find [DecidableEq K] [Inhabited K] [Inhabited V] :
    List (K × V) → (K → V → Bool) → K × V
  | [], _ => (default, default)
  | (k, v) :: rest, f => if f k v then (k, v) else Find rest f

end Sync

/-- One observer invocation, recorded as `(observer, key, new, old)`. -/
abbrev Event (O K V : Type) := O × K × V × V

/-- `Observable`: map contents plus the observer list in registration order.
Observers are opaque identities of type `O`. -/
structure Observable (O K V : Type) where
  data : List (K × V)
  obs : List O

/-- `Observable.callback` as a trace: one event per registered observer, in
registration order. -/
def callbackEvents (obs : List O) (key : K) (new old : V) : List (Event O K V) :=
  obs.map (fun f => (f, key, new, old))

namespace Observable

/-- `Observable.callback(key, new, old)`: invoke every observer in order. -/
def callback (o : Observable O K V) (key : K) (new old : V) :
    List (Event O K V) :=
  callbackEvents o.obs key new old

/-- `Observable.set`: `o.callback(key, val, o.sync.data[key])` then
`o.sync.data[key] = val`.  Returns the new state and the event trace. -/
def set [DecidableEq K] [Inhabited V] (o : Observable O K V) (key : K) (val : V) :
    Observable O K V × List (Event O K V) :=
  ({ o with data := alSet o.data key val },
   o.callback key val (alGetD o.data key))

/-- `Observable.Set`: `o.set(key, val)` inside the write lock. -/
def Set [DecidableEq K] [Inhabited V] (o : Observable O K V) (key : K) (val : V) :
    Observable O K V × List (Event O K V) :=
  Observable.set o key val

/-- `Observable.Observe`: append an observer to the notification list. -/
def Observe (o : Observable O K V) (f : O) : Observable O K V :=
  { o with obs := o.obs ++ [f] }

/-- `Observable.Keys`: delegates to `Sync.Keys`; returns (state, trace, result). -/
def Keys (o : Observable O K V) :
    Observable O K V × List (Event O K V) × List K :=
  (o, [], Sync.Keys o.data)

/-- `Observable.Values`: delegates to `Sync.Values`. -/
def Values (o : Observable O K V) :
    Observable O K V × List (Event O K V) × List V :=
  (o, [], Sync.Values o.data)

/-- `Observable.Size`: delegates to `Sync.Size`. -/
def Size (o : Observable O K V) :
    Observable O K V × List (Event O K V) × Nat :=
  (o, [], Sync.Size o.data)

/-- `Observable.Get`: delegates to `Sync.Get`. -/
def Get [DecidableEq K] [Inhabited V] (o : Observable O K V) (key : K) :
    Observable O K V × List (Event O K V) × V :=
  (o, [], Sync.Get o.data key)

/-- `Observable.Each`: delegates to `Sync.Each`, which calls `f` once per
entry under the read lock; the results of the calls are returned. -/
def Each (o : Observable O K V) (f : K → V → A) :
    Observable O K V × List (Event O K V) × List A :=
  (o, [], o.data.map (fun p => f p.1 p.2))

/-- `Observable.Filter`: delegates to `Sync.Filter`. -/
def Filter [DecidableEq K] (o : Observable O K V) (f : K → V → Bool) :
    Observable O K V × List (Event O K V) × List (K × V) :=
  (o, [], Sync.Filter o.data f)

/-- `Observable.Find`: delegates to `Sync.Find`. -/
def Find [DecidableEq K] [Inhabited K] [Inhabited V] (o : Observable O K V)
    (f : K → V → Bool) :
    Observable O K V × List (Event O K V) × (K × V) :=
  (o, [], Sync.Find o.data f)

/-- `Observable.Delete` body: for each key in order, notify with
`(key, zero, data[key])` then delete the entry. -/
def deleteLoop [DecidableEq K] [Inhabited V] (obs : List O) :
    List (K × V) → List K → List (K × V) × List (Event O K V)
  | d, [] => (d, [])
  | d, key :: keys =>
      let ev := callbackEvents obs key (default : V) (alGetD d key)
      let r := deleteLoop obs (alRemove d key) keys
      (r.1, ev ++ r.2)

/-- `Observable.Delete(keys...)` under the write lock. -/
def Delete [DecidableEq K] [Inhabited V] (o : Observable O K V) (keys : List K) :
    Observable O K V × List (Event O K V) :=
  let r := deleteLoop o.obs o.data keys
  ({ o with data := r.1 }, r.2)

/-- `Observable.DeleteFunc` body: for each entry, if `del(k, v)` then notify
with `(k, zero, v)` and delete the entry, else keep it. -/
def deleteFuncLoop [DecidableEq K] [Inhabited V] (obs : List O)
    (del : K → V → Bool) : List (K × V) → List (K × V) × List (Event O K V)
  | [] => ([], [])
  | (k, v) :: rest =>
      let r := deleteFuncLoop obs del rest
      if del k v then (r.1, callbackEvents obs k (default : V) v ++ r.2)
      else ((k, v) :: r.1, r.2)

/-- `Observable.DeleteFunc(del)` under the write lock. -/
def DeleteFunc [DecidableEq K] [Inhabited V] (o : Observable O K V)
    (del : K → V → Bool) : Observable O K V × List (Event O K V) :=
  let r := deleteFuncLoop o.obs del o.data
  ({ o with data := r.1 }, r.2)

/-- `Observable.Lock(f)`: `f` receives the `o.set` capability; modelled as the
sequence of `set` calls `f` makes, applied in order inside the lock. -/
def lockRun [DecidableEq K] [Inhabited V] (o : Observable O K V) :
    List (K × V) → Observable O K V × List (Event O K V)
  | [] => (o, [])
  | (k, v) :: cmds =>
      let r := Observable.set o k v
      let r2 := lockRun r.1 cmds
      (r2.1, r.2 ++ r2.2)

end Observable

/-- `ReduceObservable`: delegates to `ReduceSync` on the embedded map. -/
def ReduceObservable (o : Observable O K V) (a : A) (f : A → K → V → A) :
    Observable O K V × List (Event O K V) × A :=
  (o, [], ReduceSync o.data a f)

theorem flatMap_congr_mem {α β : Type} {l : List α} {f g : α → List β}
    (h : ∀ a ∈ l, f a = g a) : l.flatMap f = l.flatMap g := by
  induction l with
  | nil => rfl
  | cons x xs ih =>
    simp only [List.flatMap_cons]
    rw [h x (List.mem_cons_self ..), ih fun a ha => h a (List.mem_cons_of_mem _ ha)]

theorem getD_set_ne {α : Type} (l : List α) (i j : Nat) (x d : α) (h : i ≠ j) :
    (l.set i x).getD j d = l.getD j d := by
  simp [List.getD_eq_getD_get?, List.get?_eq_getElem?, List.getElem?_set_ne h]

theorem getD_append_last {α : Type} (l : List α) (x d : α) :
    (l ++ [x]).getD l.length d = x := by
  simp [List.getD_append_right l [x] d l.length (Nat.le_refl _)]

theorem set_append_last {α : Type} (l : List α) (x y : α) :
    (l ++ [x]).set l.length y = l ++ [y] := by
  induction l with
  | nil => rfl
  | cons a as ih => simp [List.set, ih]

theorem cloneLoop_eq [DecidableEq K] (l r : List (K × V))
    (hl : (alKeys l).Nodup) (hr : ∀ k ∈ alKeys l, alGet r k = none) :
    cloneLoop l r = r ++ l := by
  induction l generalizing r with
  | nil => simp [cloneLoop]
  | cons p rest ih =>
    obtain ⟨k, v⟩ := p
    simp only [alKeys_cons, List.nodup_cons] at hl
    have hget : alGet r k = none := hr k (alKeys_cons k v rest ▸ List.mem_cons_self ..)
    have hstep : alSet r k v = r ++ [(k, v)] := alSet_of_alGet_none r k v hget
    have hr2 : ∀ k2 ∈ alKeys rest, alGet (r ++ [(k, v)]) k2 = none := by
      intro k2 hk2
      have hne : k ≠ k2 := fun h => hl.1 (h ▸ hk2)
      rw [alGet_append]
      simp [hr k2 (alKeys_cons k v rest ▸ List.mem_cons_of_mem _ hk2), hne]
    rw [cloneLoop, hstep, ih (r ++ [(k, v)]) hl.2 hr2, List.append_assoc]
    rfl

theorem filterLoop_eq [DecidableEq K] (test : K → V → Bool) (l r : List (K × V))
    (hl : (alKeys l).Nodup) (hr : ∀ k ∈ alKeys l, alGet r k = none) :
    filterLoop test l r = r ++ l.filter (fun p => test p.1 p.2) := by
  induction l generalizing r with
  | nil => simp [filterLoop]
  | cons p rest ih =>
    obtain ⟨k, v⟩ := p
    simp only [alKeys_cons, List.nodup_cons] at hl
    have hrest : ∀ k2 ∈ alKeys rest, alGet r k2 = none := by
      intro k2 hk2
      exact hr k2 (alKeys_cons k v rest ▸ List.mem_cons_of_mem _ hk2)
    by_cases h : test k v
    · have hget : alGet r k = none :=
        hr k (alKeys_cons k v rest ▸ List.mem_cons_self ..)
      have hstep : alSet r k v = r ++ [(k, v)] := alSet_of_alGet_none r k v hget
      have hr2 : ∀ k2 ∈ alKeys rest, alGet (r ++ [(k, v)]) k2 = none := by
        intro k2 hk2
        have hne : k ≠ k2 := fun hh => hl.1 (hh ▸ hk2)
        rw [alGet_append]
        simp [hrest k2 hk2, hne]
      rw [filterLoop, if_pos h, hstep, ih (r ++ [(k, v)]) hl.2 hr2,
        List.append_assoc, List.filter_cons_of_pos (by simpa using h)]
      rfl
    · rw [filterLoop, if_neg h, ih r hl.2 hrest,
        List.filter_cons_of_neg (by simpa using h)]

theorem copy_alGet_of_none [DecidableEq K] (dst src : List (K × V)) (k : K)
    (h : alGet src k = none) : alGet (Copy dst src) k = alGet dst k := by
  induction src generalizing dst with
  | nil => rfl
  | cons p rest ih =>
    obtain ⟨k0, v0⟩ := p
    by_cases h0 : k0 = k
    · simp [h0] at h
    · simp only [alGet_cons, if_neg h0] at h
      rw [Copy, ih (alSet dst k0 v0) h, alGet_alSet_ne dst k0 k v0 (Ne.symm h0)]

theorem copy_alGet_of_some [DecidableEq K] (dst src : List (K × V)) (k : K) (v : V)
    (hn : (alKeys src).Nodup) (h : alGet src k = some v) :
    alGet (Copy dst src) k = some v := by
  induction src generalizing dst with
  | nil => simp at h
  | cons p rest ih =>
    obtain ⟨k0, v0⟩ := p
    simp only [alKeys_cons, List.nodup_cons] at hn
    by_cases h0 : k0 = k
    · subst h0
      simp only [alGet_cons, eq_self_iff_true, if_true, Option.some.injEq] at h
      subst h
      have hrest : alGet rest k0 = none :=
        alGet_none_of_not_mem_alKeys rest k0 hn.1
      rw [Copy, copy_alGet_of_none (alSet dst k0 v0) rest k0 hrest,
        alGet_alSet_self]
    · simp only [alGet_cons, if_neg h0] at h
      rw [Copy]
      exact ih (alSet dst k0 v0) hn.2 h

theorem deleteLoop_data_not_mem [DecidableEq K] [Inhabited V] (obs : List O)
    (d : List (K × V)) (keys : List K) (k : K) (h : k ∉ keys) :
    alGet (Observable.deleteLoop obs d keys).1 k = alGet d k := by
  induction keys generalizing d with
  | nil => rfl
  | cons k0 rest ih =>
    simp only [List.mem_cons, not_or] at h
    rw [Observable.deleteLoop]
    exact (ih (alRemove d k0) h.2).trans (alGet_alRemove_ne d k0 k h.1)

theorem deleteLoop_data_mem [DecidableEq K] [Inhabited V] (obs : List O)
    (d : List (K × V)) (keys : List K) (k : K) (h : k ∈ keys) :
    alGet (Observable.deleteLoop obs d keys).1 k = none := by
  induction keys generalizing d with
  | nil => simp at h
  | cons k0 rest ih =>
    rw [Observable.deleteLoop]
    by_cases hk : k ∈ rest
    · exact ih (alRemove d k0) hk
    · have hkk0 : k = k0 := by
        rcases List.mem_cons.mp h with h | h
        · exact h
        · exact absurd h hk
      subst hkk0
      exact (deleteLoop_data_not_mem obs (alRemove d k) rest k hk).trans
        (alGet_alRemove_self d k)

theorem deleteLoop_trace [DecidableEq K] [Inhabited V] (obs : List O)
    (d : List (K × V)) (keys : List K) (h : keys.Nodup) :
    (Observable.deleteLoop obs d keys).2 =
      keys.flatMap (fun k => callbackEvents obs k (default : V) (alGetD d k)) := by
  induction keys generalizing d with
  | nil => rfl
  | cons k0 rest ih =>
    simp only [List.nodup_cons] at h
    rw [Observable.deleteLoop, List.flatMap_cons]
    have hcongr :
        rest.flatMap
            (fun k => callbackEvents obs k (default : V) (alGetD (alRemove d k0) k)) =
          rest.flatMap (fun k => callbackEvents obs k (default : V) (alGetD d k)) := by
      refine flatMap_congr_mem ?_
      intro k hk
      have hne : k ≠ k0 := fun hh => h.1 (hh ▸ hk)
      rw [alGetD, alGet_alRemove_ne d k0 k hne]
      rfl
    simp only [ih (alRemove d k0) h.2, hcongr]

theorem deleteFuncLoop_eq [DecidableEq K] [Inhabited V] (obs : List O)
    (del : K → V → Bool) (l : List (K × V)) :
    Observable.deleteFuncLoop obs del l =
      (l.filter (fun p => !(del p.1 p.2)),
       (l.filter (fun p => del p.1 p.2)).flatMap
         (fun p => callbackEvents obs p.1 (default : V) p.2)) := by
  induction l with
  | nil => rfl
  | cons p rest ih =>
    obtain ⟨k, v⟩ := p
    by_cases h : del k v
    · rw [Observable.deleteFuncLoop]
      simp [h, ih]
    · rw [Observable.deleteFuncLoop]
      simp [h, ih]

/-- C1: `Observable.Set(key, val)` invokes each registered observer exactly
once with `(key, val, old)` — `old` being the stored value or the zero value —
in registration order, and stores `val` so that `Get(key)` then returns `val`;
in particular with a single observer, `Set(k, v1)` then `Set(k, v2)` on an
absent key notifies `(k, v1, zero)` then `(k, v2, v1)`. -/
theorem C1_observable_set_notifies_then_stores [DecidableEq K] [Inhabited V] :
    (∀ (o : Observable O K V) (k : K) (v : V),
        (Observable.Set o k v).2 = callbackEvents o.obs k v (alGetD o.data k) ∧
        (Observable.Set o k v).1.obs = o.obs ∧
        Sync.Get (Observable.Set o k v).1.data k = v) ∧
    (∀ (o : Observable O K V) (f : O) (k : K) (v1 v2 : V),
        o.obs = [f] → alGet o.data k = none →
        (Observable.Set o k v1).2 = [(f, k, v1, (default : V))] ∧
        (Observable.Set (Observable.Set o k v1).1 k v2).2 = [(f, k, v2, v1)] ∧
        Sync.Get (Observable.Set (Observable.Set o k v1).1 k v2).1.data k = v2) := by
  constructor
  · intro o k v
    refine ⟨rfl, rfl, ?_⟩
    simp [Observable.Set, Observable.set, Sync.Get, alGetD]
  · intro o f k v1 v2 hobs hget
    refine ⟨?_, ?_, ?_⟩
    · simp [Observable.Set, Observable.set, Observable.callback, callbackEvents,
        hobs, alGetD, hget]
    · simp [Observable.Set, Observable.set, Observable.callback, callbackEvents,
        hobs, alGetD]
    · simp [Observable.Set, Observable.set, Sync.Get, alGetD]

/-- Witness for C1 at a concrete observable (one observer `7`, key `1` absent). -/
theorem C1_witness :
    ((⟨[], [7]⟩ : Observable Nat Nat Nat).obs = [7]) ∧
    (alGet (⟨[], [7]⟩ : Observable Nat Nat Nat).data 1 = none) ∧
    ((Observable.Set (⟨[], [7]⟩ : Observable Nat Nat Nat) 1 2).2 =
        [(7, 1, 2, (default : Nat))] ∧
      (Observable.Set (Observable.Set (⟨[], [7]⟩ : Observable Nat Nat Nat) 1 2).1
          1 3).2 = [(7, 1, 3, 2)] ∧
      Sync.Get (Observable.Set
          (Observable.Set (⟨[], [7]⟩ : Observable Nat Nat Nat) 1 2).1 1 3).1.data
        1 = 3) :=
  ⟨rfl, rfl, C1_observable_set_notifies_then_stores.2 ⟨[], [7]⟩ 7 1 2 3 rfl rfl⟩

/-- C2: `Observable.Delete(keys...)` keeps the observer list, leaves none of
the named keys present, and (for distinct keys) notifies every observer once
per key, in key order, with `(key, zero, currentValue)` — the zero value when
the key is absent. -/
theorem C2_observable_delete_notifies_per_key [DecidableEq K] [Inhabited V]
    (o : Observable O K V) (keys : List K) :
    (Observable.Delete o keys).1.obs = o.obs ∧
    (∀ k ∈ keys, alGet (Observable.Delete o keys).1.data k = none) ∧
    (keys.Nodup →
      (Observable.Delete o keys).2 =
        keys.flatMap
          (fun k => callbackEvents o.obs k (default : V) (alGetD o.data k))) := by
  refine ⟨rfl, ?_, ?_⟩
  · intro k hk
    exact deleteLoop_data_mem o.obs o.data keys k hk
  · intro h
    exact deleteLoop_trace o.obs o.data keys h

/-- Witness for C2: one stored key `1` and one absent key `2`; both are
notified, the absent one with old value `0`. -/
theorem C2_witness :
    ((1 : Nat) ∈ [1, 2]) ∧ List.Nodup [(1 : Nat), 2] ∧
    alGet (Observable.Delete (⟨[(1, 5)], [9]⟩ : Observable Nat Nat Nat)
        [1, 2]).1.data 1 = none ∧
    (Observable.Delete (⟨[(1, 5)], [9]⟩ : Observable Nat Nat Nat) [1, 2]).2 =
      [1, 2].flatMap
        (fun k => callbackEvents (⟨[(1, 5)], [9]⟩ : Observable Nat Nat Nat).obs k
          (default : Nat)
          (alGetD (⟨[(1, 5)], [9]⟩ : Observable Nat Nat Nat).data k)) :=
  ⟨by decide, by decide,
   (C2_observable_delete_notifies_per_key ⟨[(1, 5)], [9]⟩ [1, 2]).2.1 1 (by decide),
   (C2_observable_delete_notifies_per_key ⟨[(1, 5)], [9]⟩ [1, 2]).2.2 (by decide)⟩

/-- C3: `Observable.DeleteFunc(test)` removes exactly the entries passing
`test`, keeps the others and the observer list, and notifies every observer
once per removed entry with `(k, zero, v)`. -/
theorem C3_observable_deletefunc_filters_and_notifies [DecidableEq K]
    [Inhabited V] (o : Observable O K V) (del : K → V → Bool) :
    (Observable.DeleteFunc o del).1.data =
      o.data.filter (fun p => !(del p.1 p.2)) ∧
    (Observable.DeleteFunc o del).1.obs = o.obs ∧
    (Observable.DeleteFunc o del).2 =
      (o.data.filter (fun p => del p.1 p.2)).flatMap
        (fun p => callbackEvents o.obs p.1 (default : V) p.2) := by
  refine ⟨?_, rfl, ?_⟩
  · show (Observable.deleteFuncLoop o.obs del o.data).1 = _
    rw [deleteFuncLoop_eq]
  · show (Observable.deleteFuncLoop o.obs del o.data).2 = _
    rw [deleteFuncLoop_eq]

/-- C4: on an initially empty `Sync` map, `Set("a",1); Set("b",2)` yields keys
exactly `{"a","b"}` (two of them) with `Get("a") = 1`; after `Delete("a")`,
`Size() = 1` and `Get("a") = 0` (the zero value). -/
theorem C4_sync_concrete_scenario :
    (Sync.Keys (Sync.Set (Sync.Set ([] : List (String × Nat)) "a" 1) "b" 2)).length
        = 2 ∧
    "a" ∈ Sync.Keys (Sync.Set (Sync.Set ([] : List (String × Nat)) "a" 1) "b" 2) ∧
    "b" ∈ Sync.Keys (Sync.Set (Sync.Set ([] : List (String × Nat)) "a" 1) "b" 2) ∧
    Sync.Get (Sync.Set (Sync.Set ([] : List (String × Nat)) "a" 1) "b" 2) "a" = 1 ∧
    Sync.Size (Sync.Delete
        (Sync.Set (Sync.Set ([] : List (String × Nat)) "a" 1) "b" 2) ["a"]) = 1 ∧
    Sync.Get (Sync.Delete
        (Sync.Set (Sync.Set ([] : List (String × Nat)) "a" 1) "b" 2) ["a"]) "a"
      = 0 := by
  decide

/-- C5: `Filter(m, test)` keeps exactly the entries passing `test` (for a map,
whose keys are distinct), its size is at most the input's, and a nil input
gives a nil output. -/
theorem C5_filter_exact_entries [DecidableEq K] (l : List (K × V))
    (test : K → V → Bool) (h : (alKeys l).Nodup) :
    (∃ r, Filter (some l) test = some r ∧
      (∀ (k : K) (v : V), (k, v) ∈ r ↔ (k, v) ∈ l ∧ test k v = true) ∧
      r.length ≤ l.length) ∧
    Filter (K := K) (V := V) none test = none := by
  refine ⟨⟨l.filter (fun p => test p.1 p.2), ?_, ?_, List.length_filter_le _ _⟩, rfl⟩
  · show some (filterLoop test l []) = _
    rw [filterLoop_eq test l [] h (fun _ _ => rfl)]
    rfl
  · intro k v
    constructor
    · intro hm
      have hmf := List.mem_filter.mp hm
      exact ⟨hmf.1, by simpa using hmf.2⟩
    · intro hm
      exact List.mem_filter.mpr ⟨hm.1, by simpa using hm.2⟩

/-- Witness for C5 at a concrete two-entry map and the test `k == 1`. -/
theorem C5_witness :
    (alKeys [((1 : Nat), (2 : Nat)), (3, 4)]).Nodup ∧
    ((∃ r, Filter (some [((1 : Nat), (2 : Nat)), (3, 4)]) (fun k _ => k == 1)
          = some r ∧
        (∀ (k v : Nat),
          (k, v) ∈ r ↔ (k, v) ∈ [((1 : Nat), (2 : Nat)), (3, 4)] ∧ (k == 1) = true) ∧
        r.length ≤ ([((1 : Nat), (2 : Nat)), (3, 4)]).length) ∧
      Filter (K := Nat) (V := Nat) none (fun k _ => k == 1) = none) :=
  ⟨by decide, C5_filter_exact_entries [(1, 2), (3, 4)] (fun k _ => k == 1) (by decide)⟩

/-- C6: `Clone` of a (non-nil) map has the same entries, `Clone(nil)` is nil,
and the clone is independent: writing to the fresh cell leaves the original
cell unchanged, and writing to the original leaves the fresh cell unchanged. -/
theorem C6_clone_equal_and_independent [DecidableEq K] :
    (∀ (l : List (K × V)), (alKeys l).Nodup → Clone (some l) = some l) ∧
    Clone (K := K) (V := V) none = none ∧
    (∀ (st : Store K V) (a : Nat) (k : K) (v : V), a < st.length →
        Store.read
            (Store.setAt (Store.cloneAt st a).1 (Store.cloneAt st a).2 k v) a
          = Store.read st a ∧
        Store.read (Store.setAt (Store.cloneAt st a).1 a k v)
            (Store.cloneAt st a).2
          = Store.read (Store.cloneAt st a).1 (Store.cloneAt st a).2) := by
  refine ⟨?_, rfl, ?_⟩
  · intro l h
    show some (cloneLoop l []) = some l
    rw [cloneLoop_eq l [] h (fun _ _ => rfl)]
    rfl
  · intro st a k v ha
    constructor
    · show ((st ++ [cloneLoop (Store.read st a) []]).set st.length
          (alSet (Store.read (st ++ [cloneLoop (Store.read st a) []]) st.length)
            k v)).getD a []
        = st.getD a []
      rw [show Store.read (st ++ [cloneLoop (Store.read st a) []]) st.length
            = cloneLoop (Store.read st a) [] from getD_append_last .., set_append_last]
      exact List.getD_append st _ [] a ha
    · show ((st ++ [cloneLoop (Store.read st a) []]).set a
          (alSet (Store.read (st ++ [cloneLoop (Store.read st a) []]) a) k v)).getD
            st.length []
        = (st ++ [cloneLoop (Store.read st a) []]).getD st.length []
      exact getD_set_ne _ a st.length _ [] (Nat.ne_of_lt ha)

/-- Witness for C6 at the one-cell store holding `[(1, 2)]`. -/
theorem C6_witness :
    (alKeys [((1 : Nat), (2 : Nat))]).Nodup ∧
    0 < ([[((1 : Nat), (2 : Nat))]] : Store Nat Nat).length ∧
    Clone (some [((1 : Nat), (2 : Nat))]) = some [((1 : Nat), (2 : Nat))] ∧
    (Store.read
        (Store.setAt (Store.cloneAt ([[((1 : Nat), (2 : Nat))]] : Store Nat Nat) 0).1
          (Store.cloneAt ([[((1 : Nat), (2 : Nat))]] : Store Nat Nat) 0).2 3 4) 0
      = Store.read ([[((1 : Nat), (2 : Nat))]] : Store Nat Nat) 0 ∧
     Store.read
        (Store.setAt (Store.cloneAt ([[((1 : Nat), (2 : Nat))]] : Store Nat Nat) 0).1
          0 3 4)
        (Store.cloneAt ([[((1 : Nat), (2 : Nat))]] : Store Nat Nat) 0).2
      = Store.read (Store.cloneAt ([[((1 : Nat), (2 : Nat))]] : Store Nat Nat) 0).1
          (Store.cloneAt ([[((1 : Nat), (2 : Nat))]] : Store Nat Nat) 0).2) :=
  ⟨by decide, by decide,
   C6_clone_equal_and_independent.1 [(1, 2)] (by decide),
   C6_clone_equal_and_independent.2.2 [[(1, 2)]] 0 3 4 (by decide)⟩

/-- C7: on the `Set` container, `Add` then `Has` is true, `Remove` then `Has`
is false, and `Add`/`Remove` are idempotent (same state after doing the
operation twice as once). -/
theorem C7_goset_add_remove_idempotent [DecidableEq T] (s : GoSet T) (t : T) :
    GoSet.Has (GoSet.Add s t) t = true ∧
    GoSet.Has (GoSet.Remove s t) t = false ∧
    GoSet.Add (GoSet.Add s t) t = GoSet.Add s t ∧
    GoSet.Remove (GoSet.Remove s t) t = GoSet.Remove s t := by
  refine ⟨?_, ?_, alSet_alSet s t () (), alRemove_alRemove s t⟩
  · simp [GoSet.Has, GoSet.Add]
  · simp [GoSet.Has, GoSet.Remove]

/-- C8: after `Copy(dst, src)`, every key of `src` maps in `dst` to `src`'s
value, keys of `dst` outside `src` keep their value, and `src`'s cell is
untouched. -/
theorem C8_copy_overwrites_and_preserves [DecidableEq K] :
    (∀ (dst src : List (K × V)) (k : K) (v : V), (alKeys src).Nodup →
        alGet src k = some v → alGet (Copy dst src) k = some v) ∧
    (∀ (dst src : List (K × V)) (k : K), alGet src k = none →
        alGet (Copy dst src) k = alGet dst k) ∧
    (∀ (st : Store K V) (adst asrc : Nat), asrc ≠ adst →
        Store.read (Store.copyAt st adst asrc) asrc = Store.read st asrc) := by
  refine ⟨?_, ?_, ?_⟩
  · intro dst src k v hn h
    exact copy_alGet_of_some dst src k v hn h
  · intro dst src k h
    exact copy_alGet_of_none dst src k h
  · intro st adst asrc h
    exact getD_set_ne st adst asrc _ [] (Ne.symm h)

/-- Witness for C8: `dst = [(1,9)]`, `src = [(1,5),(2,6)]`; key 1 is
overwritten to 5, key 3 is untouched, and the `src` cell is unchanged. -/
theorem C8_witness :
    (alKeys [((1 : Nat), (5 : Nat)), (2, 6)]).Nodup ∧
    alGet [((1 : Nat), (5 : Nat)), (2, 6)] 1 = some 5 ∧
    alGet [((1 : Nat), (5 : Nat)), (2, 6)] 3 = none ∧
    ((1 : Nat) ≠ 0) ∧
    alGet (Copy [((1 : Nat), (9 : Nat))] [(1, 5), (2, 6)]) 1 = some 5 ∧
    alGet (Copy [((1 : Nat), (9 : Nat))] [(1, 5), (2, 6)]) 3
      = alGet [((1 : Nat), (9 : Nat))] 3 ∧
    Store.read
        (Store.copyAt ([[((1 : Nat), (9 : Nat))], [(1, 5), (2, 6)]] : Store Nat Nat)
          0 1) 1
      = Store.read ([[((1 : Nat), (9 : Nat))], [(1, 5), (2, 6)]] : Store Nat Nat) 1 :=
  ⟨by decide, by decide, by decide, by decide,
   C8_copy_overwrites_and_preserves.1 [(1, 9)] [(1, 5), (2, 6)] 1 5 (by decide)
     (by decide),
   C8_copy_overwrites_and_preserves.2.1 [(1, 9)] [(1, 5), (2, 6)] 3 (by decide),
   C8_copy_overwrites_and_preserves.2.2 [[(1, 9)], [(1, 5), (2, 6)]] 0 1 (by decide)⟩

/-- C9: `Observable.Set` and the setter capability of `Observable.Lock` do no
change detection: every call notifies every observer, also when the new value
equals the stored one — the observers then see `new = old`. -/
theorem C9_set_no_change_detection [DecidableEq K] [Inhabited V] :
    (∀ (o : Observable O K V) (k : K) (v : V),
        (Observable.Set o k v).2 = callbackEvents o.obs k v (alGetD o.data k)) ∧
    (∀ (o : Observable O K V) (k : K),
        (Observable.Set o k (alGetD o.data k)).2 =
          callbackEvents o.obs k (alGetD o.data k) (alGetD o.data k)) ∧
    (∀ (o : Observable O K V) (k : K),
        (Observable.lockRun o [(k, alGetD o.data k)]).2 =
          callbackEvents o.obs k (alGetD o.data k) (alGetD o.data k)) := by
  refine ⟨fun o k v => rfl, fun o k => rfl, fun o k => ?_⟩
  simp [Observable.lockRun, Observable.set, Observable.callback]

/-- C10: the read-only operations of an `Observable` (`Keys`, `Values`,
`Size`, `Get`, `Each`, `Filter`, `Find`, `ReduceObservable`) emit no observer
event and leave the state (entries and observer list) unchanged. -/
theorem C10_read_ops_no_notify_no_mutate [DecidableEq K] [Inhabited K]
    [Inhabited V] (o : Observable O K V) (k : K) (f : K → V → A)
    (test : K → V → Bool) (a0 : A) (g : A → K → V → A) :
    (Observable.Keys o).1 = o ∧ (Observable.Keys o).2.1 = [] ∧
    (Observable.Values o).1 = o ∧ (Observable.Values o).2.1 = [] ∧
    (Observable.Size o).1 = o ∧ (Observable.Size o).2.1 = [] ∧
    (Observable.Get o k).1 = o ∧ (Observable.Get o k).2.1 = [] ∧
    (Observable.Each o f).1 = o ∧ (Observable.Each o f).2.1 = [] ∧
    (Observable.Filter o test).1 = o ∧ (Observable.Filter o test).2.1 = [] ∧
    (Observable.Find o test).1 = o ∧ (Observable.Find o test).2.1 = [] ∧
    (ReduceObservable o a0 g).1 = o ∧ (ReduceObservable o a0 g).2.1 = [] :=
  ⟨rfl, rfl, rfl, rfl, rfl, rfl, rfl, rfl, rfl, rfl, rfl, rfl, rfl, rfl, rfl, rfl⟩

end GoMaps
